import Mathlib

/-!
Shallow embedding of `downloadm3u8.py` (an m3u8 segment downloader) and
proofs about its specification claims.

The embedding models, faithfully to the Python source:
  * the f-string `segment_{i:03d}.ts` segment naming (decimal formatting
    with zero padding to width 3);
  * `parse_m3u8` (line split, `endswith('.ts')` test on the raw line,
    `strip()` and `urljoin` on the kept lines);
  * `download_file` (existence skip, streaming write, no status check);
  * `download_segments` / `download_file_with_semaphore` as a small-step
    transition system (semaphore of 5 permits, `asyncio.gather` with the
    default `return_exceptions=False`, which re-raises the first failure);
  * `concatenate_segments` (manifest generation and the ffmpeg call).
-/

namespace DownloadM3u8

/-! ### Decimal formatting: the Python f-string `segment_{i:03d}.ts` -/

/-- Most-significant-first decimal digits of `n`, with explicit fuel so the
definition is structurally recursive (mirrors repeated division by 10, as
Python's decimal formatting produces). -/
def decDigitsAux : Nat → Nat → List Nat
  | 0, _ => []
  | fuel + 1, n => if n < 10 then [n] else decDigitsAux fuel (n / 10) ++ [n % 10]

/-- Decimal digits of `n`, most significant first; `0` formats as `[0]`. -/
def decDigits (n : Nat) : List Nat := decDigitsAux (n + 1) n

/-- Value of a most-significant-first digit list. -/
def natVal : List Nat → Nat
  | [] => 0
  | d :: ds => d * 10 ^ ds.length + natVal ds

/-- Digits of `n` zero-padded on the left to width (at least) 3, as the
format specification `03d` does. -/
def padDigits3 (n : Nat) : List Nat :=
  List.replicate (3 - (decDigits n).length) 0 ++ decDigits n

/-- The character rendering of `{n:03d}`. -/
def formatNat03 (n : Nat) : List Char :=
  (padDigits3 n).map Nat.digitChar

/-- The segment file name the orchestrator computes for index `i`:
Python `f'segment_{i:03d}.ts'`. -/
def segmentFilename (i : Nat) : String :=
  ⟨"segment_".data ++ formatNat03 i ++ ".ts".data⟩

/-- The destination path `os.path.join(output_dir, segment_filename)`
(POSIX separator). -/
def destPath (dir : String) (i : Nat) : String :=
  dir ++ "/" ++ segmentFilename i

theorem natVal_append_single (l : List Nat) (d : Nat) :
    natVal (l ++ [d]) = 10 * natVal l + d := by
  induction l with
  | nil => simp [natVal]
  | cons e l ih =>
    have hlen : (l ++ [d]).length = l.length + 1 := by simp
    show natVal (e :: (l ++ [d])) = 10 * natVal (e :: l) + d
    simp only [natVal, ih, hlen]
    ring

theorem natVal_decDigitsAux (fuel : Nat) : ∀ n, n < fuel →
    natVal (decDigitsAux fuel n) = n := by
  induction fuel with
  | zero => intro n h; omega
  | succ fuel ih =>
    intro n h
    by_cases h10 : n < 10
    · simp [decDigitsAux, h10, natVal]
    · have hrec : n / 10 < fuel := by omega
      simp only [decDigitsAux, h10, if_false, natVal_append_single, ih _ hrec]
      omega

theorem natVal_decDigits (n : Nat) : natVal (decDigits n) = n :=
  natVal_decDigitsAux (n + 1) n (Nat.lt_succ_self n)

theorem decDigitsAux_lt_ten (fuel : Nat) : ∀ n d, d ∈ decDigitsAux fuel n → d < 10 := by
  induction fuel with
  | zero => intro n d h; simp [decDigitsAux] at h
  | succ fuel ih =>
    intro n d h
    by_cases h10 : n < 10
    · simp [decDigitsAux, h10] at h; omega
    · simp only [decDigitsAux, h10, if_false, List.mem_append, List.mem_singleton] at h
      rcases h with h | h
      · exact ih _ _ h
      · omega

theorem decDigits_lt_ten (n : Nat) : ∀ d ∈ decDigits n, d < 10 :=
  fun d h => decDigitsAux_lt_ten (n + 1) n d h

theorem decDigitsAux_length_le (fuel : Nat) : ∀ n k, n < fuel → n < 10 ^ k → 0 < k →
    (decDigitsAux fuel n).length ≤ k := by
  induction fuel with
  | zero => intro n k h; omega
  | succ fuel ih =>
    intro n k h hk hk0
    by_cases h10 : n < 10
    · simp [decDigitsAux, h10]; omega
    · have hk2 : 2 ≤ k := by
        rcases Nat.lt_or_ge k 2 with hlt | hge
        · have hk1 : k = 1 := by omega
          subst hk1
          rw [pow_one] at hk
          omega
        · exact hge
      have hdiv : n / 10 < 10 ^ (k - 1) := by
        have : 10 ^ k = 10 * 10 ^ (k - 1) := by
          rw [← pow_succ']
          congr 1
          omega
        omega
      have hfuel : n / 10 < fuel := by omega
      simp only [decDigitsAux, h10, if_false, List.length_append, List.length_cons,
        List.length_nil]
      have := ih (n / 10) (k - 1) hfuel hdiv (by omega)
      omega

theorem decDigits_length_le_three (n : Nat) (h : n < 1000) :
    (decDigits n).length ≤ 3 :=
  decDigitsAux_length_le (n + 1) n 3 (Nat.lt_succ_self n) (by omega) (by omega)

theorem natVal_replicate_zero (k : Nat) (l : List Nat) :
    natVal (List.replicate k 0 ++ l) = natVal l := by
  induction k with
  | zero => simp
  | succ k ih => simp [List.replicate_succ, natVal, ih]

theorem natVal_padDigits3 (n : Nat) : natVal (padDigits3 n) = n := by
  rw [padDigits3, natVal_replicate_zero, natVal_decDigits]

theorem padDigits3_lt_ten (n : Nat) : ∀ d ∈ padDigits3 n, d < 10 := by
  intro d h
  rw [padDigits3, List.mem_append] at h
  rcases h with h | h
  · have := List.eq_of_mem_replicate h
    omega
  · exact decDigits_lt_ten n d h

theorem padDigits3_length (n : Nat) (h : n < 1000) : (padDigits3 n).length = 3 := by
  have := decDigits_length_le_three n h
  simp only [padDigits3, List.length_append, List.length_replicate]
  omega

theorem natVal_lt_pow (l : List Nat) (h : ∀ d ∈ l, d < 10) :
    natVal l < 10 ^ l.length := by
  induction l with
  | nil => simp [natVal]
  | cons d ds ih =>
    have hd : d < 10 := h d (List.mem_cons_self d ds)
    have hds := ih (fun e he => h e (List.mem_cons_of_mem d he))
    simp only [natVal, List.length_cons, pow_succ']
    have h1 : d * 10 ^ ds.length ≤ 9 * 10 ^ ds.length :=
      Nat.mul_le_mul_right _ (by omega)
    omega

theorem digitChar_inj_lt : ∀ u < 10, ∀ v < 10,
    Nat.digitChar u = Nat.digitChar v → u = v := by decide

theorem digitChar_lt_mono : ∀ u < 10, ∀ v < 10,
    u < v → Nat.digitChar u < Nat.digitChar v := by decide

theorem map_digitChar_inj : ∀ (a b : List Nat), (∀ d ∈ a, d < 10) → (∀ d ∈ b, d < 10) →
    a.map Nat.digitChar = b.map Nat.digitChar → a = b := by
  intro a
  induction a with
  | nil => intro b _ _ h; cases b <;> simp_all
  | cons x a ih =>
    intro b ha hb h
    cases b with
    | nil => simp at h
    | cons y b =>
      simp only [List.map_cons, List.cons.injEq] at h
      have hx : x < 10 := ha x (List.mem_cons_self x a)
      have hy : y < 10 := hb y (List.mem_cons_self y b)
      have hxy := digitChar_inj_lt x hx y hy h.1
      have := ih b (fun d hd => ha d (List.mem_cons_of_mem x hd))
        (fun d hd => hb d (List.mem_cons_of_mem y hd)) h.2
      simp [hxy, this]

theorem lex_map_digitChar : ∀ (a b : List Nat), a.length = b.length →
    (∀ d ∈ a, d < 10) → (∀ d ∈ b, d < 10) → natVal a < natVal b →
    List.Lex (· < ·) (a.map Nat.digitChar) (b.map Nat.digitChar) := by
  intro a
  induction a with
  | nil =>
    intro b hlen _ _ hval
    cases b with
    | nil => simp [natVal] at hval
    | cons y b => simp at hlen
  | cons x a ih =>
    intro b hlen ha hb hval
    cases b with
    | nil => simp at hlen
    | cons y b =>
      simp only [List.length_cons, Nat.succ.injEq] at hlen
      have hx : x < 10 := ha x (List.mem_cons_self x a)
      have hy : y < 10 := hb y (List.mem_cons_self y b)
      rcases Nat.lt_trichotomy x y with hxy | hxy | hxy
      · exact List.Lex.rel (digitChar_lt_mono x hx y hy hxy)
      · subst hxy
        have hva : natVal a < natVal b := by
          simp only [natVal, hlen] at hval
          omega
        exact List.Lex.cons (ih b hlen
          (fun d hd => ha d (List.mem_cons_of_mem x hd))
          (fun d hd => hb d (List.mem_cons_of_mem x hd)) hva)
      · exfalso
        have hvb : natVal b < 10 ^ b.length :=
          natVal_lt_pow b (fun d hd => hb d (List.mem_cons_of_mem y hd))
        have hmul : (y + 1) * 10 ^ b.length ≤ x * 10 ^ a.length := by
          rw [hlen]
          exact Nat.mul_le_mul_right _ (by omega)
        simp only [natVal] at hval
        nlinarith

theorem lex_append_of_length_eq {α : Type} {r : α → α → Prop} :
    ∀ {a b : List α}, List.Lex r a b → a.length = b.length →
    ∀ (s t : List α), List.Lex r (a ++ s) (b ++ t) := by
  intro a b h
  induction h with
  | nil => intro hlen; simp at hlen
  | rel h => intro _ s t; exact List.Lex.rel h
  | cons h ih =>
    intro hlen s t
    simp only [List.length_cons, Nat.succ.injEq] at hlen
    exact List.Lex.cons (ih hlen s t)

theorem lex_prepend_common {α : Type} {r : α → α → Prop} (xs : List α) {a b : List α}
    (h : List.Lex r a b) : List.Lex r (xs ++ a) (xs ++ b) := by
  induction xs with
  | nil => simpa using h
  | cons c xs ih => exact List.Lex.cons ih

theorem formatNat03_length (n : Nat) (h : n < 1000) : (formatNat03 n).length = 3 := by
  rw [formatNat03, List.length_map, padDigits3_length n h]

theorem segmentFilename_lt_of_lt {i j : Nat} (hij : i < j) (hj : j < 1000) :
    segmentFilename i < segmentFilename j := by
  have hi : i < 1000 := Nat.lt_trans hij hj
  rw [String.lt_iff_toList_lt]
  change List.Lex (· < ·) ("segment_".data ++ formatNat03 i ++ ".ts".data)
    ("segment_".data ++ formatNat03 j ++ ".ts".data)
  rw [List.append_assoc, List.append_assoc]
  apply lex_prepend_common
  apply lex_append_of_length_eq
  · rw [formatNat03, formatNat03]
    apply lex_map_digitChar
    · rw [padDigits3_length i hi, padDigits3_length j hj]
    · exact padDigits3_lt_ten i
    · exact padDigits3_lt_ten j
    · rw [natVal_padDigits3, natVal_padDigits3]; exact hij
  · rw [formatNat03_length i hi, formatNat03_length j hj]

theorem segmentFilename_inj {i j : Nat} (h : segmentFilename i = segmentFilename j) :
    i = j := by
  have hdata : "segment_".data ++ formatNat03 i ++ ".ts".data =
      "segment_".data ++ formatNat03 j ++ ".ts".data := congrArg String.data h
  rw [List.append_assoc, List.append_assoc] at hdata
  have h1 := List.append_cancel_left hdata
  have h2 := List.append_cancel_right h1
  have h3 := map_digitChar_inj (padDigits3 i) (padDigits3 j)
    (padDigits3_lt_ten i) (padDigits3_lt_ten j) h2
  have h4 := congrArg natVal h3
  rwa [natVal_padDigits3, natVal_padDigits3] at h4

theorem destPath_inj {dir : String} {i j : Nat} (h : destPath dir i = destPath dir j) :
    i = j := by
  apply segmentFilename_inj
  have hdata := congrArg String.data h
  rw [destPath, destPath, String.data_append, String.data_append] at hdata
  have := List.append_cancel_left hdata
  exact String.toList_inj.mp this

/-! ### Character-level models of the Python string operations used -/

/-- Python str.split on a single separator character, at the character
level; always returns at least one (possibly empty) piece. -/
def splitOnChar (sep : Char) : List Char → List (List Char)
  | [] => [[]]
  | c :: cs =>
    match splitOnChar sep cs with
    | [] => [[]]
    | piece :: rest => if c = sep then [] :: piece :: rest else (c :: piece) :: rest

/-- Python str.strip: drop whitespace from both ends. -/
def stripChars (l : List Char) : List Char :=
  ((l.dropWhile Char.isWhitespace).reverse.dropWhile Char.isWhitespace).reverse

/-- Join pieces with a slash (inverse of splitting a URL path on the
separator). -/
def joinSlash (pieces : List (List Char)) : List Char :=
  List.intercalate ['/'] pieces

/-- Whether pat occurs as a contiguous subsequence of the list. -/
def containsSeq (pat : List Char) : List Char → Bool
  | [] => List.isPrefixOf pat []
  | c :: cs => List.isPrefixOf pat (c :: cs) || containsSeq pat cs

/-- Models Python urllib.parse.urljoin (standard library, not part of this
repository) for the reference shapes a flat media playlist produces: a
reference carrying a scheme passes through unchanged; a protocol-relative
reference takes the base scheme; a root-relative reference takes the base
scheme and authority; any other reference is joined to the base URL's
directory. -/
def urljoin (base ref : String) : String :=
  if containsSeq "://".data ref.data then ref
  else if List.isPrefixOf "//".data ref.data then
    ⟨(base.data.takeWhile (fun c => c ≠ ':')) ++ ':' :: ref.data⟩
  else if List.isPrefixOf "/".data ref.data then
    ⟨joinSlash ((splitOnChar '/' base.data).take 3) ++ ref.data⟩
  else
    ⟨joinSlash ((splitOnChar '/' base.data).dropLast) ++ '/' :: ref.data⟩

/-- Embedding of parse_m3u8: split the content on newlines; a line is kept
if and only if the RAW line ends with ".ts" (the source tests
line.endswith before stripping); each kept line is stripped and resolved
against the base URL. The loop accumulating with append is modelled by a
fold. -/
def parse_m3u8 (content base_url : String) : List String :=
  (splitOnChar '\n' content.data).foldl
    (fun segments line =>
      if List.isSuffixOf ".ts".data line then
        segments ++ [urljoin base_url ⟨stripChars line⟩]
      else segments) []

/-- The parser as section 4.1 of the spec words it: a line is a segment
reference if and only if, AFTER trimming, it ends with ".ts". Declared
only to compare the spec's wording with the code. -/
def parse_m3u8_asSpecified (content base_url : String) : List String :=
  ((splitOnChar '\n' content.data).filter
    (fun line => List.isSuffixOf ".ts".data (stripChars line))).map
    (fun line => urljoin base_url ⟨stripChars line⟩)

theorem foldl_collect {α β : Type} (p : α → Bool) (f : α → β) :
    ∀ (l : List α) (acc : List β),
      l.foldl (fun acc x => if p x then acc ++ [f x] else acc) acc
        = acc ++ (l.filter p).map f := by
  intro l
  induction l with
  | nil => intro acc; simp
  | cons x l ih =>
    intro acc
    by_cases hx : p x = true <;>
      simp [List.foldl_cons, hx, ih, List.filter_cons]

/-! ### Filesystem and transport model for the fetcher -/

/-- Content of a file in the modelled directory. -/
inductive FileData
  | bin (bytes : List Nat)
  | text (lines : List String)
deriving DecidableEq

/-- The output directory as an association list from path to content; a
later write shadows an earlier one. -/
abbrev FS := List (String × FileData)

/-- os.path.exists on the modelled directory. -/
def fsHas (fs : FS) (path : String) : Bool :=
  (fs.lookup path).isSome

/-- Creating or truncating-and-writing a file (open with mode w or wb). -/
def fsWrite (fs : FS) (path : String) (d : FileData) : FS :=
  (path, d) :: fs

/-- What the transport yields for one GET: a success response body, a
response delivered with a non-success status (aiohttp still streams its
body; the source never checks the status), or a transport failure that
raises after some bytes were already written. -/
inductive GetResult
  | ok (body : List Nat)
  | httpError (status : Nat) (body : List Nat)
  | transportFail (written : List Nat)
deriving DecidableEq

/-- Whether the coroutine returned normally or raised. -/
inductive Outcome
  | success
  | error
deriving DecidableEq

/-- Embedding of download_file: skip (no GET) when the destination exists;
otherwise stream the response body to the destination. A delivered
response is written and reported as success whatever its status, because
the source never checks response.status; a transport failure leaves the
partially written bytes on disk and propagates the exception. The third
component counts GET operations issued. -/
def download_file (net : String → GetResult) (url filename : String) (fs : FS) :
    FS × Outcome × Nat :=
  if fsHas fs filename then (fs, .success, 0)
  else
    match net url with
    | .ok body => (fsWrite fs filename (.bin body), .success, 1)
    | .httpError _ body => (fsWrite fs filename (.bin body), .success, 1)
    | .transportFail written => (fsWrite fs filename (.bin written), .error, 1)

/-! ### Assembler: concatenate_segments -/

/-- Result of invoking the external muxer subprocess: an exit code, or the
executable was not found on the path. -/
inductive MuxResult
  | exited (code : Nat)
  | notFound
deriving DecidableEq

/-- The assembly step's failure: subprocess.run(check=True) raises on a
non-zero exit code, and the spawn raises when ffmpeg is absent. -/
inductive AssemblyError
  | toolFailed (code : Nat)
  | toolNotFound
deriving DecidableEq

/-- Python sorted on directory entries (lexicographic by code point). -/
def sortStrings (l : List String) : List String :=
  List.insertionSort (· ≤ ·) l

/-- The manifest lines concatenate_segments writes: directory entries
sorted, filtered to names ending in ".ts", each rendered as the ffmpeg
concat directive with a literal backslash separator (the source writes a
backslash escape inside the f-string). -/
def manifestForDir (listing : List String) (output_dir : String) : List String :=
  ((sortStrings listing).filter (fun fn => List.isSuffixOf ".ts".data fn.data)).map
    (fun fn => "file '" ++ output_dir ++ "\\" ++ fn ++ "'")

/-- Embedding of concatenate_segments: write segment_list.txt into the
input directory (the listing passed in is the directory content at
os.listdir time, after that file was created), then run ffmpeg; the
result is ok exactly when the subprocess exits 0. Nothing is ever
deleted. -/
def concatenate_segments (fs : FS) (listing : List String)
    (input_dir output_dir : String) (mux : MuxResult) :
    FS × Except AssemblyError Unit :=
  (fsWrite fs (input_dir ++ "/segment_list.txt")
      (.text (manifestForDir listing output_dir)),
   match mux with
   | .exited code => if code = 0 then Except.ok () else Except.error (.toolFailed code)
   | .notFound => Except.error .toolNotFound)

/-! ### Orchestrator: download_segments as a small-step transition system

download_segments creates one task per segment; each task runs
download_file_with_semaphore: acquire the semaphore (5 permits), run
download_file, release the semaphore whether the fetch returned or
raised. asyncio.gather is awaited with the default
return_exceptions=False, so the first task that finishes with an
exception makes the await re-raise it; the orchestrator then returns
without awaiting the remaining tasks and the run is torn down
(asyncio.run cancels still-pending tasks). -/

/-- Where one download task stands. -/
inductive Phase
  | pending
  | fetching
  | releasing (o : Outcome)
  | done (o : Outcome)
  | cancelled
deriving DecidableEq

/-- State of a download_segments run: free semaphore permits, one phase
per task (in playlist order), the shared directory, the number of GETs
issued so far, and whether the gather already propagated a failure. -/
structure Orch where
  sem : Nat
  jobs : List Phase
  fs : FS
  netOps : Nat
  aborted : Bool
deriving DecidableEq

/-- Teardown of a task when the run aborts: a finished task keeps its
result, every other task is cancelled. -/
def cancelUnfinished : Phase → Phase
  | .done o => .done o
  | _ => .cancelled

/-- One scheduler step of the run. acquire models entering the
async-with on the semaphore; fetch models the awaited download_file call
(its suspension points interleave, but each task owns a distinct
destination file, so the call is modelled as one step); release models
leaving the async-with, which runs on success and on exception alike;
abort models gather re-raising the exception of a task that finished
with an error, cancelling everything still unfinished. -/
inductive Step (net : String → GetResult) (segs : List String) (outdir : String) :
    Orch → Orch → Prop
  | acquire (s : Orch) (i : Nat) :
      s.aborted = false → s.jobs[i]? = some .pending → 0 < s.sem →
      Step net segs outdir s
        { s with sem := s.sem - 1, jobs := s.jobs.set i .fetching }
  | fetch (s : Orch) (i : Nat) (url : String) :
      s.aborted = false → s.jobs[i]? = some .fetching → segs[i]? = some url →
      Step net segs outdir s
        { s with
          fs := (download_file net url (destPath outdir i) s.fs).1,
          jobs := s.jobs.set i
            (.releasing (download_file net url (destPath outdir i) s.fs).2.1),
          netOps := s.netOps + (download_file net url (destPath outdir i) s.fs).2.2 }
  | release (s : Orch) (i : Nat) (o : Outcome) :
      s.aborted = false → s.jobs[i]? = some (.releasing o) →
      Step net segs outdir s
        { s with sem := s.sem + 1, jobs := s.jobs.set i (.done o) }
  | abort (s : Orch) (i : Nat) :
      s.aborted = false → s.jobs[i]? = some (.done .error) →
      Step net segs outdir s
        { s with aborted := true, jobs := s.jobs.map cancelUnfinished }

/-- Initial state: Semaphore(5), every task created and pending, the
directory as found on disk, no GET issued yet. -/
def initOrch (fs0 : FS) (n : Nat) : Orch :=
  { sem := 5, jobs := List.replicate n .pending, fs := fs0, netOps := 0, aborted := false }

/-- The states a run of download_segments can reach. -/
def Reach (net : String → GetResult) (segs : List String) (outdir : String)
    (fs0 : FS) (s : Orch) : Prop :=
  Relation.ReflTransGen (Step net segs outdir) (initOrch fs0 segs.length) s

/-- The run is over: either the gather propagated a failure, or every
task finished. -/
def TerminalB (s : Orch) : Bool :=
  s.aborted || s.jobs.all (fun p => match p with | .done _ => true | _ => false)

/-- A task that finished with an exception. -/
def isFailedDone : Phase → Bool
  | .done .error => true
  | _ => false

/-- Index of the first task that finished with an exception. -/
def findErrIdx : List Phase → Option Nat
  | [] => none
  | p :: rest => if isFailedDone p then some 0 else (findErrIdx rest).map (· + 1)

/-- The job whose failure the orchestrator surfaces (the exception the
await gather re-raises; with a single failing job it is that job's). -/
def reportedFailure (s : Orch) : Option Nat :=
  findErrIdx s.jobs

/-- A task currently inside the semaphore (between acquire and release). -/
def isHolding : Phase → Bool
  | .fetching => true
  | .releasing _ => true
  | _ => false

/-- A task whose fetch is executing right now. -/
def isFetching : Phase → Bool
  | .fetching => true
  | _ => false

/-- The fetch of job i fails at the transport level (and only then does
download_file raise). -/
def jobTransportFails (net : String → GetResult) (segs : List String) (i : Nat) : Bool :=
  match segs[i]? with
  | some url =>
    match net url with
    | .transportFail _ => true
    | _ => false
  | none => false

theorem reach_invariant {net : String → GetResult} {segs : List String}
    {outdir : String} {fs0 : FS} (P : Orch → Prop)
    (hinit : P (initOrch fs0 segs.length))
    (hstep : ∀ s t, P s → Step net segs outdir s t → P t) :
    ∀ s, Reach net segs outdir fs0 s → P s := by
  intro s h
  induction h with
  | refl => exact hinit
  | tail hab hbc ih => exact hstep _ _ ih hbc

theorem countP_set {α : Type} (p : α → Bool) :
    ∀ (l : List α) (i : Nat) (x y : α), l[i]? = some x →
      (l.set i y).countP p + (if p x then 1 else 0)
        = l.countP p + (if p y then 1 else 0) := by
  intro l
  induction l with
  | nil => intro i x y h; simp at h
  | cons a l ih =>
    intro i x y h
    cases i with
    | zero =>
      simp only [List.getElem?_cons_zero, Option.some.injEq] at h
      subst h
      simp only [List.set_cons_zero, List.countP_cons]
      omega
    | succ i =>
      simp only [List.getElem?_cons_succ] at h
      simp only [List.set_cons_succ, List.countP_cons]
      have := ih i x y h
      omega

/-- Semaphore bookkeeping: while the run is live, free permits plus tasks
inside the semaphore always account for the 5 permits; after teardown no
task is inside; free permits never exceed 5. -/
def SemInv (s : Orch) : Prop :=
  (s.aborted = false → s.sem + s.jobs.countP isHolding = 5) ∧
  (s.aborted = true → s.jobs.countP isHolding = 0) ∧
  s.sem ≤ 5

theorem semInv_reach {net : String → GetResult} {segs : List String}
    {outdir : String} {fs0 : FS} :
    ∀ s, Reach net segs outdir fs0 s → SemInv s := by
  apply reach_invariant
  · refine ⟨fun _ => ?_, fun h => by simp [initOrch] at h, by simp [initOrch]⟩
    have hz : (List.replicate segs.length Phase.pending).countP isHolding = 0 := by
      rw [List.countP_eq_zero]
      intro a ha
      rw [List.eq_of_mem_replicate ha]
      simp [isHolding]
    simp [initOrch, hz]
  · intro s t hP hstep
    obtain ⟨h1, h2, h3⟩ := hP
    cases hstep with
    | acquire i hab hj hsem =>
      have hset := countP_set isHolding s.jobs i .pending .fetching hj
      simp [isHolding] at hset
      have hc := h1 hab
      refine ⟨fun _ => ?_, fun habs => ?_, ?_⟩
      · dsimp only
        omega
      · dsimp only at habs
        rw [hab] at habs
        simp at habs
      · dsimp only
        omega
    | fetch i url hab hj hurl =>
      have hset := countP_set isHolding s.jobs i .fetching
        (.releasing (download_file net url (destPath outdir i) s.fs).2.1) hj
      simp [isHolding] at hset
      have hc := h1 hab
      refine ⟨fun _ => ?_, fun habs => ?_, ?_⟩
      · dsimp only
        omega
      · dsimp only at habs
        rw [hab] at habs
        simp at habs
      · dsimp only
        omega
    | release i o hab hj =>
      have hset := countP_set isHolding s.jobs i (.releasing o) (.done o) hj
      simp [isHolding] at hset
      have hc := h1 hab
      refine ⟨fun _ => ?_, fun habs => ?_, ?_⟩
      · dsimp only
        omega
      · dsimp only at habs
        rw [hab] at habs
        simp at habs
      · dsimp only
        omega
    | abort i hab hj =>
      have hz : (s.jobs.map cancelUnfinished).countP isHolding = 0 := by
        rw [List.countP_eq_zero]
        intro a ha
        obtain ⟨b, hb, rfl⟩ := List.mem_map.mp ha
        cases b <;> simp [cancelUnfinished, isHolding]
      exact ⟨fun h => by simp at h, fun _ => hz, h3⟩

theorem fsHas_fsWrite_self (fs : FS) (q : String) (d : FileData) :
    fsHas (fsWrite fs q d) q = true := by
  simp [fsHas, fsWrite, List.lookup]

theorem fsHas_fsWrite_mono (fs : FS) (q p : String) (d : FileData)
    (h : fsHas fs p = true) : fsHas (fsWrite fs q d) p = true := by
  simp only [fsHas, fsWrite, List.lookup]
  by_cases hpq : p == q
  · simp [hpq]
  · simp only [hpq, Bool.false_eq_true, if_false]
    exact h

theorem download_file_skip (net : String → GetResult) (url fn : String) (fs : FS)
    (h : fsHas fs fn = true) : download_file net url fn fs = (fs, .success, 0) := by
  simp [download_file, h]

theorem download_file_fs_mono (net : String → GetResult) (url fn p : String) (fs : FS)
    (h : fsHas fs p = true) : fsHas (download_file net url fn fs).1 p = true := by
  rw [download_file]
  split
  · exact h
  · cases net url <;> exact fsHas_fsWrite_mono fs fn p _ h

theorem download_file_has_dest (net : String → GetResult) (url fn : String) (fs : FS) :
    fsHas (download_file net url fn fs).1 fn = true := by
  rw [download_file]
  split
  · assumption
  · cases net url <;> exact fsHas_fsWrite_self fs fn _

theorem download_file_error_net (net : String → GetResult) (url fn : String) (fs : FS)
    (h : (download_file net url fn fs).2.1 = .error) :
    ∃ w, net url = .transportFail w := by
  rw [download_file] at h
  by_cases hfs : fsHas fs fn = true
  · simp [hfs] at h
  · simp only [Bool.not_eq_true] at hfs
    cases hnet : net url <;> simp [hfs, hnet] at h ⊢

theorem getElem?_set_cases {α : Type} {l : List α} {i j : Nat} {y v : α}
    (h : (l.set i y)[j]? = some v) : (i = j ∧ v = y) ∨ l[j]? = some v := by
  by_cases hij : i = j
  · subst hij
    rw [List.getElem?_set_self'] at h
    left
    refine ⟨rfl, ?_⟩
    cases hl : l[i]? with
    | none => rw [hl] at h; simp at h
    | some w =>
      rw [hl] at h
      exact (Option.some.inj h).symm
  · right
    rwa [List.getElem?_set_ne hij] at h

/-- Provenance of task results: a task finished (or about to release)
with an error only if its own fetch transport-fails; a task that
finished (or is about to release) successfully has its destination file
on disk. -/
def GoodJobs (net : String → GetResult) (segs : List String) (outdir : String)
    (s : Orch) : Prop :=
  (∀ i, (s.jobs[i]? = some (.releasing .error) ∨ s.jobs[i]? = some (.done .error)) →
    jobTransportFails net segs i = true) ∧
  (∀ i, (s.jobs[i]? = some (.releasing .success) ∨ s.jobs[i]? = some (.done .success)) →
    fsHas s.fs (destPath outdir i) = true)

theorem goodJobs_reach {net : String → GetResult} {segs : List String}
    {outdir : String} {fs0 : FS} :
    ∀ s, Reach net segs outdir fs0 s → GoodJobs net segs outdir s := by
  apply reach_invariant
  · constructor <;> intro i hi <;>
      rcases hi with h | h <;>
      · simp only [initOrch] at h
        obtain ⟨hlt, heq⟩ := List.getElem?_eq_some_iff.mp h
        rw [List.getElem_replicate] at heq
        simp at heq
  · intro s t hP hstep
    obtain ⟨herr, hsucc⟩ := hP
    cases hstep with
    | acquire i hab hj hsem =>
      constructor <;> intro j hj2 <;> dsimp only at hj2 ⊢
      · rcases hj2 with h | h
        · rcases getElem?_set_cases h with ⟨rfl, hv⟩ | hold
          · simp at hv
          · exact herr j (Or.inl hold)
        · rcases getElem?_set_cases h with ⟨rfl, hv⟩ | hold
          · simp at hv
          · exact herr j (Or.inr hold)
      · rcases hj2 with h | h
        · rcases getElem?_set_cases h with ⟨rfl, hv⟩ | hold
          · simp at hv
          · exact hsucc j (Or.inl hold)
        · rcases getElem?_set_cases h with ⟨rfl, hv⟩ | hold
          · simp at hv
          · exact hsucc j (Or.inr hold)
    | fetch i url hab hj hurl =>
      constructor <;> intro j hj2 <;> dsimp only at hj2 ⊢
      · rcases hj2 with h | h
        · rcases getElem?_set_cases h with ⟨heq, hv⟩ | hold
          · subst heq
            have hout : (download_file net url (destPath outdir i) s.fs).2.1 = .error :=
              (Phase.releasing.inj hv).symm
            obtain ⟨w, hw⟩ := download_file_error_net net url (destPath outdir i) s.fs hout
            simp [jobTransportFails, hurl, hw]
          · exact herr j (Or.inl hold)
        · rcases getElem?_set_cases h with ⟨heq, hv⟩ | hold
          · simp at hv
          · exact herr j (Or.inr hold)
      · rcases hj2 with h | h
        · rcases getElem?_set_cases h with ⟨heq, hv⟩ | hold
          · subst heq
            exact download_file_has_dest net url (destPath outdir i) s.fs
          · exact download_file_fs_mono net url (destPath outdir i) (destPath outdir j)
              s.fs (hsucc j (Or.inl hold))
        · rcases getElem?_set_cases h with ⟨heq, hv⟩ | hold
          · simp at hv
          · exact download_file_fs_mono net url (destPath outdir i) (destPath outdir j)
              s.fs (hsucc j (Or.inr hold))
    | release i o hab hj =>
      constructor <;> intro j hj2 <;> dsimp only at hj2 ⊢
      · rcases hj2 with h | h
        · rcases getElem?_set_cases h with ⟨heq, hv⟩ | hold
          · simp at hv
          · exact herr j (Or.inl hold)
        · rcases getElem?_set_cases h with ⟨heq, hv⟩ | hold
          · subst heq
            have ho : o = .error := (Phase.done.inj hv).symm
            subst ho
            exact herr i (Or.inl hj)
          · exact herr j (Or.inr hold)
      · rcases hj2 with h | h
        · rcases getElem?_set_cases h with ⟨heq, hv⟩ | hold
          · simp at hv
          · exact hsucc j (Or.inl hold)
        · rcases getElem?_set_cases h with ⟨heq, hv⟩ | hold
          · subst heq
            have ho : o = .success := (Phase.done.inj hv).symm
            subst ho
            exact hsucc i (Or.inl hj)
          · exact hsucc j (Or.inr hold)
    | abort i hab hj =>
      constructor <;> intro j hj2 <;> dsimp only at hj2 ⊢
      · rcases hj2 with h | h
        · rw [List.getElem?_map] at h
          cases hpre : s.jobs[j]? with
          | none => rw [hpre] at h; simp at h
          | some q =>
            rw [hpre] at h
            simp only [Option.map_some'] at h
            have := Option.some.inj h
            cases q <;> simp [cancelUnfinished] at this
        · rw [List.getElem?_map] at h
          cases hpre : s.jobs[j]? with
          | none => rw [hpre] at h; simp at h
          | some q =>
            rw [hpre] at h
            simp only [Option.map_some'] at h
            have hq := Option.some.inj h
            cases q with
            | done o =>
              cases o with
              | success => simp [cancelUnfinished] at hq
              | error => exact herr j (Or.inr hpre)
            | pending => simp [cancelUnfinished] at hq
            | fetching => simp [cancelUnfinished] at hq
            | releasing o => simp [cancelUnfinished] at hq
            | cancelled => simp [cancelUnfinished] at hq
      · rcases hj2 with h | h
        · rw [List.getElem?_map] at h
          cases hpre : s.jobs[j]? with
          | none => rw [hpre] at h; simp at h
          | some q =>
            rw [hpre] at h
            simp only [Option.map_some'] at h
            have := Option.some.inj h
            cases q <;> simp [cancelUnfinished] at this
        · rw [List.getElem?_map] at h
          cases hpre : s.jobs[j]? with
          | none => rw [hpre] at h; simp at h
          | some q =>
            rw [hpre] at h
            simp only [Option.map_some'] at h
            have hq := Option.some.inj h
            cases q with
            | done o =>
              cases o with
              | success => exact hsucc j (Or.inr hpre)
              | error => simp [cancelUnfinished] at hq
            | pending => simp [cancelUnfinished] at hq
            | fetching => simp [cancelUnfinished] at hq
            | releasing o => simp [cancelUnfinished] at hq
            | cancelled => simp [cancelUnfinished] at hq

theorem findErrIdx_unique : ∀ (l : List Phase) (k : Nat),
    l[k]? = some (.done .error) →
    (∀ j y, l[j]? = some y → isFailedDone y = true → j = k) →
    findErrIdx l = some k := by
  intro l
  induction l with
  | nil => intro k hk _; simp at hk
  | cons a l ih =>
    intro k hk huniq
    by_cases ha : isFailedDone a = true
    · have h0 : (0 : Nat) = k := huniq 0 a (by simp) ha
      rw [findErrIdx, if_pos ha, h0]
    · cases k with
      | zero =>
        simp only [List.getElem?_cons_zero, Option.some.injEq] at hk
        rw [hk] at ha
        simp [isFailedDone] at ha
      | succ k =>
        rw [findErrIdx, if_neg ha]
        have hrec := ih k (by simpa using hk)
          (fun j y hj hy => by
            have := huniq (j + 1) y (by simpa using hj) hy
            omega)
        rw [hrec]
        rfl

/-- If every destination already exists, a run of download_segments
issues no GET and leaves the directory untouched. -/
theorem reach_no_fetch {net : String → GetResult} {segs : List String}
    {outdir : String} {fs0 : FS}
    (hall : ∀ i, i < segs.length → fsHas fs0 (destPath outdir i) = true) :
    ∀ s, Reach net segs outdir fs0 s → s.netOps = 0 ∧ s.fs = fs0 := by
  apply reach_invariant (P := fun s => s.netOps = 0 ∧ s.fs = fs0)
  · exact ⟨rfl, rfl⟩
  · intro s t hP hstep
    obtain ⟨hn, hfs⟩ := hP
    cases hstep with
    | acquire i hab hj hsem => exact ⟨hn, hfs⟩
    | fetch i url hab hj hurl =>
      have hlt : i < segs.length := (List.getElem?_eq_some_iff.mp hurl).1
      have hskip : download_file net url (destPath outdir i) s.fs =
          (s.fs, .success, 0) := by
        apply download_file_skip
        rw [hfs]
        exact hall i hlt
      refine ⟨?_, ?_⟩ <;> dsimp only <;> rw [hskip]
      · simpa using hn
      · exact hfs
    | release i o hab hj => exact ⟨hn, hfs⟩
    | abort i hab hj => exact ⟨hn, hfs⟩

/-! ### A concrete run: two segments, the first one transport-fails -/

/-- Transport for the concrete run: GET on u0 raises before any byte,
GET on u1 succeeds. -/
def netTwo : String → GetResult :=
  fun url => if url = "u0" then .transportFail [] else .ok [7]

/-- The two parsed segment URLs of the concrete run. -/
def segsTwo : List String := ["u0", "u1"]

/-- The state the concrete run ends in when the scheduler runs job 0
first: job 0 failed, gather re-raised its exception and job 1 was
cancelled before ever fetching. -/
def orchCrash : Orch :=
  { sem := 5, jobs := [.done .error, .cancelled],
    fs := [(destPath "video_segments" 0, .bin [])], netOps := 1, aborted := true }

theorem reach_orchCrash : Reach netTwo segsTwo "video_segments" [] orchCrash := by
  have t0 : Reach netTwo segsTwo "video_segments" [] (initOrch [] segsTwo.length) :=
    Relation.ReflTransGen.refl
  have t1 := t0.tail (Step.acquire _ 0 (by decide) (by decide) (by decide))
  have t2 := t1.tail (Step.fetch _ 0 "u0" (by decide) (by decide) (by decide))
  have t3 := t2.tail (Step.release _ 0 .error (by decide) (by decide))
  have t4 := t3.tail (Step.abort _ 0 (by decide) (by decide))
  exact t4

/-! ### The claims -/

/-- Transport that always delivers a 404 response (body is the bytes of
the text 404). -/
def net404 : String → GetResult := fun _ => .httpError 404 [52, 48, 52]

/-- Transport that always fails at the transport level after one byte. -/
def netFailT : String → GetResult := fun _ => .transportFail [1]

/-- Claim C3, counterexample: the claim says a non-success response makes
the fetch fail, but download_file never inspects the response status; on
a 404 it writes the error body to the destination and reports success. -/
theorem claim_c3_counterexample :
    net404 "u" = .httpError 404 [52, 48, 52] ∧
    fsHas [] "f" = false ∧
    (download_file net404 "u" "f" []).2.1 ≠ .error ∧
    (download_file net404 "u" "f" []).1 = [("f", .bin [52, 48, 52])] := by
  decide

/-- Claim C3 (amended): for a fresh destination, only a transport failure
makes the fetch fail (the aiohttp exception propagates; there is no
FetchError class), and the partially written file is left on disk; a
response with a non-success status is streamed to the destination and
reported as success. -/
theorem claim_c3_fetch_failure_behavior
    (net : String → GetResult) (url fn : String) (fs : FS)
    (hnew : fsHas fs fn = false) :
    (∀ w, net url = .transportFail w →
      download_file net url fn fs = (fsWrite fs fn (.bin w), .error, 1)) ∧
    (∀ st body, net url = .httpError st body →
      download_file net url fn fs = (fsWrite fs fn (.bin body), .success, 1)) := by
  constructor
  · intro w hw
    simp [download_file, hnew, hw]
  · intro st body hb
    simp [download_file, hnew, hb]

/-- Witness for C3's theorem at a concrete transport failure. -/
theorem claim_c3_witness :
    fsHas [] "f" = false ∧
    download_file netFailT "u" "f" [] = (fsWrite [] "f" (.bin [1]), .error, 1) :=
  ⟨by decide,
    (claim_c3_fetch_failure_behavior netFailT "u" "f" [] (by decide)).1 [1] (by decide)⟩

/-- Claim C4, counterexample: in the run where job 0 of 2 transport-fails
and is scheduled first, the orchestrator reaches a terminal state (gather
re-raised job 0's exception) in which job 1's segment file does not
exist: the claim that the other N-1 segment files exist on disk
afterwards is false, because gather with its default settings propagates
the first failure without waiting for the remaining jobs. -/
theorem claim_c4_counterexample :
    ¬ (∀ s : Orch, Reach netTwo segsTwo "video_segments" [] s →
        TerminalB s = true →
        fsHas s.fs (destPath "video_segments" 1) = true) := by
  intro hclaim
  have h := hclaim orchCrash reach_orchCrash (by decide)
  exact absurd h (by decide)

/-- Claim C4 (amended): when job k is the only one whose fetch can
transport-fail and it finished with an error, the failure the
orchestrator surfaces is job k's (gather re-raises it), and every job
that did complete successfully before the teardown has its segment file
on disk; jobs that were still pending may have been cancelled, so only
those files are guaranteed. -/
theorem claim_c4_failure_surfacing
    (net : String → GetResult) (segs : List String) (outdir : String) (fs0 : FS)
    (s : Orch) (k : Nat)
    (hreach : Reach net segs outdir fs0 s)
    (hk : s.jobs[k]? = some (.done .error))
    (huniq : ∀ j, jobTransportFails net segs j = true → j = k) :
    reportedFailure s = some k ∧
    ∀ j, s.jobs[j]? = some (.done .success) →
      fsHas s.fs (destPath outdir j) = true := by
  obtain ⟨herr, hsucc⟩ := goodJobs_reach s hreach
  refine ⟨?_, fun j hj => hsucc j (Or.inr hj)⟩
  rw [reportedFailure]
  apply findErrIdx_unique s.jobs k hk
  intro j y hjy hy
  have hjerr : s.jobs[j]? = some (.done .error) := by
    cases y with
    | pending => simp [isFailedDone] at hy
    | fetching => simp [isFailedDone] at hy
    | releasing o => simp [isFailedDone] at hy
    | cancelled => simp [isFailedDone] at hy
    | done o =>
      cases o with
      | success => simp [isFailedDone] at hy
      | error => exact hjy
  exact huniq j (herr j (Or.inr hjerr))

/-- Witness for C4's theorem on the concrete two-job run. -/
theorem claim_c4_witness :
    reportedFailure orchCrash = some 0 ∧
    ∀ j, orchCrash.jobs[j]? = some (.done .success) →
      fsHas orchCrash.fs (destPath "video_segments" j) = true :=
  claim_c4_failure_surfacing netTwo segsTwo "video_segments" [] orchCrash 0
    reach_orchCrash (by decide)
    (by
      intro j hj
      match j with
      | 0 => rfl
      | 1 => exact absurd hj (by decide)
      | n + 2 =>
        exfalso
        have hnone : segsTwo[n + 2]? = none := by
          apply List.getElem?_eq_none
          simp [segsTwo]
        simp [jobTransportFails, hnone] at hj)

/-- Claim C5: in every reachable state of any run, at most 5 fetches are
executing concurrently and the semaphore's free-permit count never
exceeds the configured 5. -/
theorem claim_c5_concurrency_bound
    (net : String → GetResult) (segs : List String) (outdir : String) (fs0 : FS)
    (s : Orch) (hreach : Reach net segs outdir fs0 s) :
    s.jobs.countP isFetching ≤ 5 ∧ s.sem ≤ 5 := by
  obtain ⟨h1, h2, h3⟩ := semInv_reach s hreach
  refine ⟨?_, h3⟩
  have hmono : s.jobs.countP isFetching ≤ s.jobs.countP isHolding := by
    apply List.countP_mono_left
    intro x hx hfx
    cases x <;> simp_all [isFetching, isHolding]
  cases habs : s.aborted with
  | false => have := h1 habs; omega
  | true => have := h2 habs; omega

/-- Witness for C5's theorem on the concrete two-job run. -/
theorem claim_c5_witness :
    orchCrash.jobs.countP isFetching ≤ 5 ∧ orchCrash.sem ≤ 5 :=
  claim_c5_concurrency_bound netTwo segsTwo "video_segments" [] orchCrash
    reach_orchCrash

/-- A directory already holding the single segment file of a one-segment
playlist. -/
def fsOne : FS := [(destPath "video_segments" 0, FileData.bin [])]

/-- A one-segment playlist. -/
def segsOne : List String := ["u0"]

/-- Final state of re-running the one-segment download over fsOne: the
job completed successfully without touching the network or the disk. -/
def orchSkipDone : Orch :=
  { sem := 5, jobs := [.done .success], fs := fsOne, netOps := 0, aborted := false }

theorem reach_orchSkipDone :
    Reach (fun _ => GetResult.ok []) segsOne "video_segments" fsOne orchSkipDone := by
  have t0 : Reach (fun _ => GetResult.ok []) segsOne "video_segments" fsOne
      (initOrch fsOne segsOne.length) := Relation.ReflTransGen.refl
  have t1 := t0.tail (Step.acquire _ 0 (by decide) (by decide) (by decide))
  have t2 := t1.tail (Step.fetch _ 0 "u0" (by decide) (by decide) (by decide))
  have t3 := t2.tail (Step.release _ 0 .success (by decide) (by decide))
  exact t3

/-- Claim C6: a fetch whose destination exists is a no-op success, so
re-running over a directory holding every destination issues zero GETs,
leaves the directory exactly as it was, and the assembly step then
behaves identically to any run over that directory. -/
theorem claim_c6_idempotent_skip
    (net : String → GetResult) (segs : List String) (outdir : String) (fs0 : FS)
    (hall : ∀ i, i < segs.length → fsHas fs0 (destPath outdir i) = true)
    (s : Orch) (hreach : Reach net segs outdir fs0 s) :
    s.netOps = 0 ∧ s.fs = fs0 ∧
    ∀ listing indir odir mux,
      concatenate_segments s.fs listing indir odir mux
        = concatenate_segments fs0 listing indir odir mux := by
  obtain ⟨hn, hfs⟩ := reach_no_fetch hall s hreach
  exact ⟨hn, hfs, fun _ _ _ _ => by rw [hfs]⟩

/-- Witness for C6's theorem on a completed one-segment re-run. -/
theorem claim_c6_witness :
    orchSkipDone.netOps = 0 ∧ orchSkipDone.fs = fsOne ∧
    ∀ listing indir odir mux,
      concatenate_segments orchSkipDone.fs listing indir odir mux
        = concatenate_segments fsOne listing indir odir mux :=
  claim_c6_idempotent_skip (fun _ => GetResult.ok []) segsOne "video_segments" fsOne
    (by
      intro i hi
      simp only [segsOne, List.length_cons, List.length_nil] at hi
      have h0 : i = 0 := by omega
      subst h0
      decide)
    orchSkipDone reach_orchSkipDone

/-- Claim C7: the assembly step fails exactly when the muxer subprocess
exits non-zero or its executable is not found; a zero exit succeeds; and
assembly never deletes anything, so whatever partial output exists stays
in place. -/
theorem claim_c7_assembly_error
    (fs : FS) (listing : List String) (indir outdir : String) (mux : MuxResult) :
    ((∃ e, (concatenate_segments fs listing indir outdir mux).2 = .error e) ↔
      mux = .notFound ∨ ∃ c, c ≠ 0 ∧ mux = .exited c) ∧
    (∀ p, fsHas fs p = true →
      fsHas (concatenate_segments fs listing indir outdir mux).1 p = true) := by
  constructor
  · cases mux with
    | exited c =>
      by_cases hc : c = 0
      · subst hc
        simp [concatenate_segments]
      · simp [concatenate_segments, hc]
    | notFound => simp [concatenate_segments]
  · intro p hp
    exact fsHas_fsWrite_mono fs _ p _ hp

/-- Witness for C7's theorem: missing ffmpeg fails, files survive. -/
theorem claim_c7_witness :
    fsHas [("a", FileData.bin [])] "a" = true ∧
    fsHas (concatenate_segments [("a", FileData.bin [])] [] "d" "o" .notFound).1
      "a" = true :=
  ⟨by decide,
    (claim_c7_assembly_error [("a", FileData.bin [])] [] "d" "o" .notFound).2 "a"
      (by decide)⟩

/-- Claim C8, counterexample: after assembly, whether ffmpeg succeeded or
failed, segment_list.txt is still on disk; the claim that no manifest
file remains after the assembly step is false (the source never deletes
it). -/
theorem claim_c8_counterexample :
    fsHas (concatenate_segments [] ["segment_000.ts"] "video_segments"
        "video_segments" (.exited 0)).1 "video_segments/segment_list.txt" = true ∧
    fsHas (concatenate_segments [] ["segment_000.ts"] "video_segments"
        "video_segments" (.exited 1)).1 "video_segments/segment_list.txt" = true := by
  decide

/-- Claim C8 (amended): the manifest is regenerated from scratch on every
assembly (the file is opened for truncating write, so its content is
exactly the freshly computed lines whatever was there before), but it is
persisted: segment_list.txt remains in the segment directory after
assembly completes or fails. -/
theorem claim_c8_manifest_fresh_persistent
    (fs : FS) (listing : List String) (indir outdir : String) (mux : MuxResult) :
    ((concatenate_segments fs listing indir outdir mux).1).lookup
      (indir ++ "/segment_list.txt") = some (.text (manifestForDir listing outdir)) := by
  simp [concatenate_segments, fsWrite, List.lookup]

/-- Claim C9: distinct segment indices always get distinct filenames and
hence distinct destination paths, so no two download jobs ever write the
same file. -/
theorem claim_c9_distinct_destinations (dir : String) (i j : Nat) (hij : i ≠ j) :
    segmentFilename i ≠ segmentFilename j ∧ destPath dir i ≠ destPath dir j :=
  ⟨fun h => hij (segmentFilename_inj h), fun h => hij (destPath_inj h)⟩

/-- Witness for C9's theorem at the first two indices. -/
theorem claim_c9_witness :
    (0 : Nat) ≠ 1 ∧
    (segmentFilename 0 ≠ segmentFilename 1 ∧
      destPath "video_segments" 0 ≠ destPath "video_segments" 1) :=
  ⟨by decide, claim_c9_distinct_destinations "video_segments" 0 1 (by decide)⟩

/-- Claim C10: every manifest line is the ffmpeg concat directive built
from the output directory, a literal backslash, and a directory entry
ending in .ts; in particular the manifest file itself (segment_list.txt)
never appears among its own entries. -/
theorem claim_c10_manifest_lines (listing : List String) (outdir : String)
    (line : String) (hline : line ∈ manifestForDir listing outdir) :
    ∃ fn, List.isSuffixOf ".ts".data fn.data = true ∧ fn ≠ "segment_list.txt" ∧
      line = "file '" ++ outdir ++ "\\" ++ fn ++ "'" := by
  obtain ⟨fn, hfn, rfl⟩ := List.mem_map.mp hline
  have hsuf : List.isSuffixOf ".ts".data fn.data = true := (List.mem_filter.mp hfn).2
  refine ⟨fn, hsuf, ?_, rfl⟩
  intro heq
  rw [heq] at hsuf
  exact absurd hsuf (by decide)

/-- Witness for C10's theorem on a one-entry directory. -/
theorem claim_c10_witness :
    ("file 'video_segments\\segment_000.ts'"
        ∈ manifestForDir ["segment_000.ts"] "video_segments") ∧
    ∃ fn, List.isSuffixOf ".ts".data fn.data = true ∧ fn ≠ "segment_list.txt" ∧
      "file 'video_segments\\segment_000.ts'" = "file '" ++ "video_segments" ++ "\\" ++ fn ++ "'" :=
  ⟨by decide,
    claim_c10_manifest_lines ["segment_000.ts"] "video_segments"
      "file 'video_segments\\segment_000.ts'" (by decide)⟩

theorem isSuffixOf_append_self (s t : List Char) : List.isSuffixOf s (t ++ s) = true := by
  rw [List.isSuffixOf_iff_suffix]
  exact List.suffix_append t s

/-- Claim C1, counterexample: with 1001 segments the 03d padding stops
being fixed-width and lexicographic order diverges from index order:
segment_1000.ts sorts strictly before segment_999.ts, so sorting the
full 1001-name listing does not reproduce index order. -/
theorem claim_c1_counterexample :
    segmentFilename 1000 < segmentFilename 999 ∧
    sortStrings ((List.range 1001).map segmentFilename)
      ≠ (List.range 1001).map segmentFilename := by
  constructor
  · rw [String.lt_iff_toList_lt]
    decide
  · intro heq
    have hsorted : List.Sorted (· ≤ ·) ((List.range 1001).map segmentFilename) := by
      rw [← heq]
      exact List.sorted_insertionSort _ _
    have hr : List.range 1001 = List.range 999 ++ [999, 1000] := by
      rw [List.range_succ, List.range_succ]
      simp
    have hsub : List.Sublist [segmentFilename 999, segmentFilename 1000]
        ((List.range 1001).map segmentFilename) := by
      rw [hr, List.map_append]
      exact List.sublist_append_right _ _
    have h2 : List.Sorted (· ≤ ·) [segmentFilename 999, segmentFilename 1000] :=
      hsorted.sublist hsub
    have hle : segmentFilename 999 ≤ segmentFilename 1000 :=
      (List.sorted_cons.mp h2).1 _ (by simp)
    have hlt : segmentFilename 1000 < segmentFilename 999 := by
      rw [String.lt_iff_toList_lt]
      decide
    exact absurd hle (not_le.mpr hlt)

/-- Claim C1 (amended): for playlists of at most 1000 segments the
zero-padded names do sort in index order: whatever order the directory
listing presents the N segment files in (plus the manifest file that was
just created there), the assembler's manifest lists the N files in exact
playlist order, independent of fetch completion order. -/
theorem claim_c1_sorted_manifest
    (N : Nat) (hN : N ≤ 1000) (listing : List String) (outdir : String)
    (hperm : listing.Perm ("segment_list.txt" :: (List.range N).map segmentFilename)) :
    manifestForDir listing outdir =
      (List.range N).map
        (fun i => "file '" ++ outdir ++ "\\" ++ segmentFilename i ++ "'") := by
  have hp : (sortStrings listing).Perm
      ("segment_list.txt" :: (List.range N).map segmentFilename) :=
    (List.perm_insertionSort _ listing).trans hperm
  have hcanon : ((List.range N).map segmentFilename).filter
      (fun fn => List.isSuffixOf ".ts".data fn.data) = (List.range N).map segmentFilename := by
    rw [List.filter_eq_self]
    intro a ha
    obtain ⟨i, hi, rfl⟩ := List.mem_map.mp ha
    exact isSuffixOf_append_self ".ts".data ("segment_".data ++ formatNat03 i)
  have hfilterPerm : ((sortStrings listing).filter
      (fun fn => List.isSuffixOf ".ts".data fn.data)).Perm
      ((List.range N).map segmentFilename) := by
    have h1 := hp.filter (fun fn => List.isSuffixOf ".ts".data fn.data)
    rw [List.filter_cons] at h1
    simp only [show List.isSuffixOf ".ts".data "segment_list.txt".data = false by decide,
      Bool.false_eq_true, if_false, hcanon] at h1
    exact h1
  have hsorted : List.Sorted (· ≤ ·) ((sortStrings listing).filter
      (fun fn => List.isSuffixOf ".ts".data fn.data)) :=
    (List.sorted_insertionSort _ listing).filter _
  have hcanonSorted : List.Sorted (· ≤ ·) ((List.range N).map segmentFilename) := by
    rw [List.Sorted, List.pairwise_map]
    apply List.Pairwise.imp_of_mem ?_ (List.pairwise_lt_range N)
    intro a b ha hb hab
    have hbN : b < N := List.mem_range.mp hb
    exact le_of_lt (segmentFilename_lt_of_lt hab (Nat.lt_of_lt_of_le hbN hN))
  have heq := List.eq_of_perm_of_sorted hfilterPerm hsorted hcanonSorted
  rw [manifestForDir, heq, List.map_map]
  rfl

/-- Witness for C1's theorem: a scrambled two-segment listing (with the
manifest file present) yields the manifest in playlist order. -/
theorem claim_c1_witness :
    manifestForDir ["segment_001.ts", "segment_list.txt", "segment_000.ts"]
        "video_segments" =
      (List.range 2).map
        (fun i => "file '" ++ "video_segments" ++ "\\" ++ segmentFilename i ++ "'") :=
  claim_c1_sorted_manifest 2 (by decide)
    ["segment_001.ts", "segment_list.txt", "segment_000.ts"] "video_segments"
    (by decide)

/-- Claim C2, counterexample: a line that ends in .ts only after
trimming (here a trailing blank, as a CRLF playlist would also produce)
is dropped by the code, though the spec's after-trimming rule keeps it:
the code tests endswith on the raw line. -/
theorem claim_c2_counterexample :
    parse_m3u8 "seg.ts \n#EXTM3U" "http://h/p/" = [] ∧
    parse_m3u8_asSpecified "seg.ts \n#EXTM3U" "http://h/p/" = ["http://h/p/seg.ts"] ∧
    List.isSuffixOf ".ts".data (stripChars "seg.ts ".data) = true := by
  decide

/-- Claim C2 (amended): the parser returns exactly the lines whose raw
(untrimmed) text ends in .ts, each trimmed and resolved against the base
URL, in source order; directive lines, comments, blank lines, and lines
ending in .ts only after trimming yield nothing. -/
theorem claim_c2_parser_characterization (content base_url : String) :
    parse_m3u8 content base_url =
      ((splitOnChar '\n' content.data).filter
        (fun line => List.isSuffixOf ".ts".data line)).map
        (fun line => urljoin base_url ⟨stripChars line⟩) := by
  have h := foldl_collect (fun line => List.isSuffixOf ".ts".data line)
    (fun line => urljoin base_url ⟨stripChars line⟩) (splitOnChar '\n' content.data) []
  simpa [parse_m3u8] using h

/-- The playlist scenario of spec section 8, checked on the embedding. -/
theorem parse_scenario :
    parse_m3u8 "#EXTM3U\nseg_000.ts\nseg_001.ts\n#EXT-X-ENDLIST"
        "https://cdn.example/path/"
      = ["https://cdn.example/path/seg_000.ts", "https://cdn.example/path/seg_001.ts"] := by
  decide

end DownloadM3u8
